import Mathlib

/-!
Verification of the DragonOS signal core (`kernel/src/ipc/signal_types.rs`)
against its natural-language specification.

The Rust code is shallowly embedded: machine integers become `Nat`/`Int`
(`u64` values carry explicit `< 2^64` bounds or `% 2^64` reductions where
overflow matters), `Vec<SigInfo>` becomes `List SigInfo`, and the stateful
methods become pure functions returning the updated state.

Items from the architecture module (`crate::arch::ipc::signal`: the `Signal`
numbers, `SigSet` bit layout, `SigFlags` bits, `SigCode`, and `ffz`) are not
part of the analysed source tree; those are modelled from the specification
(POSIX-standard signal numbering 1..31, bit (n-1) of a 64-bit set represents
signal n, `ffz` = index of the first zero bit).  Each such definition carries
a comment saying so.
-/

/-- `SigSet`: fixed 64-bit bitset (`bitflags` over `u64` in the source).
Values are `Nat`s understood to lie below `2^64`. -/
abbrev SigSet := Nat

/-- `SigSet::union`: bitwise or. -/
def SigSet.union (a b : SigSet) : SigSet := a ||| b

/-- `SigSet::intersection`: bitwise and. -/
def SigSet.intersection (a b : SigSet) : SigSet := a &&& b

/-- `SigSet::complement`: flip all 64 defined bits (`!bits & all`). -/
def SigSet.complement (a : SigSet) : SigSet := a ^^^ (2 ^ 64 - 1)

/-- `SigSet::contains(other)`: `bits & other.bits == other.bits`. -/
def SigSet.contains (a b : SigSet) : Bool := a &&& b == b

/-- `SigSet::remove(other)`: `bits &= !other.bits`. -/
def SigSet.remove (a b : SigSet) : SigSet := a &&& SigSet.complement b

/-- `SigSet::from_bits_truncate`: keep only the 64 defined bits.
Modelled from the spec: the set is a fixed 64-bit bitset, all bits defined. -/
def SigSet.from_bits_truncate (n : Nat) : SigSet := n &&& (2 ^ 64 - 1)

/-- `SigSet::bits`. -/
def SigSet.bits (a : SigSet) : Nat := a

/-- `Signal`: the numeric signal identifier, 0 = `INVALID`, valid range 1..=64. -/
abbrev Signal := Nat

/-- Modelled from the spec: sentinel `Signal::INVALID` = 0. -/
def Signal.INVALID : Signal := 0

/-- Modelled from the spec: POSIX-standard signal numbering (signals 1..31). -/
def Signal.SIGHUP : Signal := 1
def Signal.SIGINT : Signal := 2
def Signal.SIGQUIT : Signal := 3
def Signal.SIGILL : Signal := 4
def Signal.SIGTRAP : Signal := 5
def Signal.SIGABRT_OR_IOT : Signal := 6
def Signal.SIGBUS : Signal := 7
def Signal.SIGFPE : Signal := 8
def Signal.SIGKILL : Signal := 9
def Signal.SIGUSR1 : Signal := 10
def Signal.SIGSEGV : Signal := 11
def Signal.SIGUSR2 : Signal := 12
def Signal.SIGPIPE : Signal := 13
def Signal.SIGALRM : Signal := 14
def Signal.SIGTERM : Signal := 15
def Signal.SIGCHLD : Signal := 17
def Signal.SIGCONT : Signal := 18
def Signal.SIGSTOP : Signal := 19
def Signal.SIGTSTP : Signal := 20
def Signal.SIGTTIN : Signal := 21
def Signal.SIGTTOU : Signal := 22
def Signal.SIGURG : Signal := 23
def Signal.SIGXCPU : Signal := 24
def Signal.SIGXFSZ : Signal := 25
def Signal.SIGWINCH : Signal := 28
def Signal.SIGIO_OR_POLL : Signal := 29
def Signal.SIGSYS : Signal := 31

/-- Modelled from the spec: `Signal::into_sigset` places bit (n-1) for signal n. -/
def Signal.into_sigset (sig : Signal) : SigSet := 1 <<< (sig - 1)

/-- Modelled from the spec: `Signal::from(n)` yields the signal for a number in
1..=64 and `INVALID` otherwise. -/
def Signal.ofNat (n : Nat) : Signal := if 1 ≤ n ∧ n ≤ 64 then n else Signal.INVALID

/-- Modelled from the spec: `ffz(x)` = index of the lowest zero bit of the
64-bit word `x` (`find_first_zero_bit`); scans bits 0..63, returns 64 when all
are set (the kernel never calls it in that case). `ffzAux x fuel i` scans from
bit `i` with `fuel` positions remaining. -/
def ffzAux (x : Nat) : Nat → Nat → Nat
  | 0, i => i
  | fuel + 1, i => if x.testBit i then ffzAux x fuel (i + 1) else i

/-- `ffz` entry point: scan the 64 bit positions from 0. -/
def ffz (x : Nat) : Nat := ffzAux x 64 0

/-- `SigCode`: origin tag of a `SigInfo`.  Modelled from the spec (the enum
lives in the architecture module): `SI_USER`, `SI_KERNEL`, `SI_QUEUE`,
`SI_TIMER`, `SI_MESGQ`, `SI_ASYNCIO`, `SI_TKILL`. -/
inductive SigCode where
  | SI_USER
  | SI_KERNEL
  | SI_QUEUE
  | SI_TIMER
  | SI_MESGQ
  | SI_ASYNCIO
  | SI_TKILL
  deriving DecidableEq, Repr

/-- `SigType`: signal-specific detail; the only variant is `Kill(pid)`.
`Pid` is modelled as `Nat`. -/
inductive SigType where
  | Kill (pid : Nat)
  deriving DecidableEq, Repr

/-- `SigInfo`: `{ sig_no: i32, sig_code: SigCode, errno: i32, reserved: u32,
sig_type: SigType }`. -/
structure SigInfo where
  sig_no : Int
  sig_code : SigCode
  errno : Int
  reserved : Nat
  sig_type : SigType
  deriving DecidableEq, Repr

/-- `SigInfo::new(sig, sig_errno, sig_code, reserved, sig_type)`
(`sig_no = sig as i32`). -/
def SigInfo.new (sig : Signal) (sig_errno : Int) (sig_code : SigCode)
    (reserved : Nat) (sig_type : SigType) : SigInfo :=
  ⟨(sig : Int), sig_code, sig_errno, reserved, sig_type⟩

/-- `SigQueue`: ordered sequence of pending `SigInfo` records (`Vec<SigInfo>`). -/
structure SigQueue where
  q : List SigInfo
  deriving DecidableEq, Repr

/-- Rust `x.sig_no as u64`: two's-complement conversion of an `i32` value to
`u64`, i.e. the value modulo `2^64`. -/
def i32_as_u64 (n : Int) : Nat := (n % ((2 : Int) ^ 64)).toNat

/-- State thread of the `drain_filter` closure in `SigQueue::find_and_delete`:
walk the queue in order carrying the captured `first` and `still_pending`
flags; return (kept entries, removed entries, final `still_pending`).
A matching entry is removed only while `first` is still set; later matches
are kept and raise `still_pending`. -/
def fadGo (sig : Signal) : List SigInfo → Bool → Bool →
    List SigInfo × List SigInfo × Bool
  | [], _, sp => ([], [], sp)
  | x :: xs, first, sp =>
    if x.sig_no == (sig : Int) then
      if !first then
        let r := fadGo sig xs first true
        (x :: r.1, r.2.1, r.2.2)
      else
        let r := fadGo sig xs false sp
        (r.1, x :: r.2.1, r.2.2)
    else
      let r := fadGo sig xs first sp
      (x :: r.1, r.2.1, r.2.2)

/-- `SigQueue::find_and_delete(sig)`: run the `drain_filter` pass starting with
`first = true`, `still_pending = false`; the filtered-out entries (`Vec::pop`
takes the last one, and at most one is ever removed) give the returned
`Option<SigInfo>`.  Returns ((removed info, still_pending), updated queue). -/
def SigQueue.find_and_delete (q : SigQueue) (sig : Signal) :
    (Option SigInfo × Bool) × SigQueue :=
  let r := fadGo sig q.q true false
  ((r.2.1.getLast?, r.2.2), ⟨r.1⟩)

/-- Loop of `SigQueue::find(sig)`: scan in order; remember the first match;
on seeing a second match set `still_pending` and break. -/
def findGo (sig : Signal) : List SigInfo → Option SigInfo → Option SigInfo × Bool
  | [], info => (info, false)
  | x :: xs, info =>
    if x.sig_no == (sig : Int) then
      match info with
      | some i => (some i, true)
      | none => findGo sig xs (some x)
    else
      findGo sig xs info

/-- `SigQueue::find(sig)`: first matching entry plus the `still_pending` flag. -/
def SigQueue.find (q : SigQueue) (sig : Signal) : Option SigInfo × Bool :=
  findGo sig q.q none

/-- `SigQueue::flush_by_mask(mask)`: `drain_filter` removing every entry `x`
with `mask.contains(SigSet::from_bits_truncate(x.sig_no as u64))`; the kept
entries are those failing the filter. -/
def SigQueue.flush_by_mask (q : SigQueue) (mask : SigSet) : SigQueue :=
  ⟨q.q.filter fun x =>
    !(SigSet.contains mask (SigSet.from_bits_truncate (i32_as_u64 x.sig_no)))⟩

/-- `SigPending`: `{ signal: SigSet, queue: SigQueue }`. -/
structure SigPending where
  signal : SigSet
  queue : SigQueue
  deriving DecidableEq, Repr

/-- `SigPending::next_signal(sig_mask)`: `x = signal ∩ ¬mask`; if `x ≠ 0`
return `Signal::from(ffz(¬x) + 1)`, otherwise `INVALID`. -/
def SigPending.next_signal (p : SigPending) (sig_mask : SigSet) : Signal :=
  let sig := Signal.INVALID
  let s := p.signal
  let m := sig_mask
  let x := SigSet.intersection s (SigSet.complement m)
  if SigSet.bits x ≠ 0 then
    Signal.ofNat (ffz (SigSet.complement x) + 1)
  else
    sig

/-- `SigPending::collect_signal(sig)`: `find_and_delete` on the queue; clear
bit (sig-1) when `still_pending` is false; return the removed info, or when
none was queued (fast-path assertion) the synthesized
`SigInfo::new(sig, 0, SI_USER, 0, Kill(0))` with `sig_type` re-set to
`Kill(Pid::new(0))`. -/
def SigPending.collect_signal (p : SigPending) (sig : Signal) :
    SigInfo × SigPending :=
  let fd := SigQueue.find_and_delete p.queue sig
  let info := fd.1.1
  let still_pending := fd.1.2
  let signal' :=
    if still_pending then p.signal
    else SigSet.remove p.signal (Signal.into_sigset sig)
  match info with
  | some i => (i, ⟨signal', fd.2⟩)
  | none =>
      ({ SigInfo.new sig 0 SigCode.SI_USER 0 (SigType.Kill 0) with
          sig_type := SigType.Kill 0 }, ⟨signal', fd.2⟩)

/-- A caller-side flush through the pending pair:
`pending.queue_mut().flush_by_mask(mask)` — the queue is filtered, the
`signal` field is untouched (the method lives on `SigQueue`). -/
def SigPending.flush_by_mask (p : SigPending) (mask : SigSet) : SigPending :=
  { p with queue := SigQueue.flush_by_mask p.queue mask }

/-- `SigFlags`: `SA_*` bit flags.  Bit assignments modelled from the spec
(the `bitflags` declaration lives in the architecture module); all that
matters is that the flags are distinct single bits. -/
abbrev SigFlags := Nat

def SigFlags.SA_FLAG_IGN : SigFlags := 1
def SigFlags.SA_FLAG_DFL : SigFlags := 2
def SigFlags.SA_RESTART : SigFlags := 4
def SigFlags.SA_NODEFER : SigFlags := 8
def SigFlags.SA_RESETHAND : SigFlags := 16
def SigFlags.SA_SIGINFO : SigFlags := 32
def SigFlags.SA_ONSTACK : SigFlags := 64

/-- `SigFlags::contains`: `bits & other.bits == other.bits`. -/
def SigFlags.contains (a b : SigFlags) : Bool := a &&& b == b

/-- `SaHandlerType`: `SigError` (2) / `SigDefault` (0) / `SigIgnore` (1) /
`SigCustomized(address)`. -/
inductive SaHandlerType where
  | SigError
  | SigDefault
  | SigIgnore
  | SigCustomized (handler : Nat)
  deriving DecidableEq, Repr

/-- `SigactionType`: `SaHandler(SaHandlerType)` or `SaSigaction(fn ptr)`
(the function pointer is modelled by its address). -/
inductive SigactionType where
  | SaHandler (h : SaHandlerType)
  | SaSigaction (f : Option Nat)
  deriving DecidableEq, Repr

/-- `Sigaction`: `{ action, flags, mask, restorer }`. -/
structure Sigaction where
  action : SigactionType
  flags : SigFlags
  mask : SigSet
  restorer : Option Nat
  deriving DecidableEq, Repr

/-- `Sigaction::ignore(sig)`: true when flags contain `SA_FLAG_IGN`, or flags
contain `SA_FLAG_DFL` and the action is `SaHandler(SigIgnore)`.  The `sig`
argument is unused in the source (`_sig`). -/
def Sigaction.ignore (a : Sigaction) (_sig : Signal) : Bool :=
  if SigFlags.contains a.flags SigFlags.SA_FLAG_IGN then
    true
  else if SigFlags.contains a.flags SigFlags.SA_FLAG_DFL then
    match a.action with
    | SigactionType.SaHandler SaHandlerType.SigIgnore => true
    | _ => false
  else
    false

/-- `SIG_KERNEL_IGNORE_MASK` as the source declares it: SIGCONT, SIGFPE,
SIGSEGV, SIGBUS, SIGTRAP, SIGCHLD, SIGIO/POLL, SIGSYS. -/
def SIG_KERNEL_IGNORE_MASK : SigSet :=
  SigSet.union
    (SigSet.union
      (SigSet.union
        (SigSet.union
          (SigSet.union
            (SigSet.union
              (SigSet.union (Signal.into_sigset Signal.SIGCONT)
                (Signal.into_sigset Signal.SIGFPE))
              (Signal.into_sigset Signal.SIGSEGV))
            (Signal.into_sigset Signal.SIGBUS))
          (Signal.into_sigset Signal.SIGTRAP))
        (Signal.into_sigset Signal.SIGCHLD))
      (Signal.into_sigset Signal.SIGIO_OR_POLL))
    (Signal.into_sigset Signal.SIGSYS)

/-- `SystemError`: only the variants the signal core surfaces. -/
inductive SystemError where
  | EFAULT
  | EINVAL
  | ENOMEM
  deriving DecidableEq, Repr

/-- Modelled from the spec: the user-memory capability behind
`UserBufferWriter` (the VM layer is outside the analysed sources).
`writableRange base size` says the byte range `[base, base+size)` is valid
writable user memory; `store` maps a destination address to the `SigInfo`
record currently visible there (`none` when no record has been written). -/
structure UserMem where
  writableRange : Nat → Nat → Bool
  store : Nat → Option SigInfo

/-- Modelled from the spec: `size_of::<SigInfo>()` — an abstract positive
byte count (its exact value never matters to the contract). -/
def sigInfoSize : Nat := 32

/-- `SigInfo::copy_siginfo_to_user(to)`: `UserBufferWriter::new` validates
the whole destination range (propagating `EFAULT` on failure), then
`copy_one_to_user` deposits the entire record in one step; returns `Ok(0)`.
Modelled from the spec for the `UserBufferWriter` part: validation failure
leaves memory untouched, success writes the whole record atomically. -/
def SigInfo.copy_siginfo_to_user (info : SigInfo) (mem : UserMem) (dst : Nat) :
    Except SystemError (Int × UserMem) :=
  if mem.writableRange dst sigInfoSize then
    Except.ok (0,
      ⟨mem.writableRange, fun a => if a = dst then some info else mem.store a⟩)
  else
    Except.error SystemError.EFAULT

/-- Concrete queue entries for the flush scenario (spec scenario E). -/
def sigintInfo : SigInfo := ⟨2, SigCode.SI_USER, 0, 0, SigType.Kill 0⟩
def sigtermInfo : SigInfo := ⟨15, SigCode.SI_USER, 0, 0, SigType.Kill 0⟩
def sigusr1Info : SigInfo := ⟨10, SigCode.SI_USER, 0, 0, SigType.Kill 0⟩

/-- Queue holding SIGINT, SIGTERM, SIGUSR1 in order (scenario E). -/
def scenarioQueueE : SigQueue := ⟨[sigintInfo, sigtermInfo, sigusr1Info]⟩

/-- Mask {SIGINT, SIGUSR1} (bits 1 and 9). -/
def scenarioMaskE : SigSet :=
  SigSet.union (Signal.into_sigset Signal.SIGINT)
    (Signal.into_sigset Signal.SIGUSR1)

/-- Concrete record and memory used to instantiate the copy-out contract. -/
def copyDemoInfo : SigInfo := ⟨2, SigCode.SI_USER, 0, 0, SigType.Kill 42⟩

/-- Memory in which exactly the range starting at 4096 of the record size is
writable and nothing has been stored yet. -/
def copyDemoMem : UserMem :=
  ⟨fun base size => base == 4096 && size == sigInfoSize, fun _ => none⟩

/-! ## Helper lemmas -/

/-- `ffzAux` finds the least zero bit at or above `i`, given one exists in
the scanned window. -/
theorem ffzAux_spec (x : Nat) : ∀ fuel i : Nat,
    (∃ j, i ≤ j ∧ j < i + fuel ∧ x.testBit j = false) →
    x.testBit (ffzAux x fuel i) = false ∧ i ≤ ffzAux x fuel i ∧
      ffzAux x fuel i < i + fuel ∧
      ∀ k, i ≤ k → k < ffzAux x fuel i → x.testBit k = true := by
  intro fuel
  induction fuel with
  | zero =>
    intro i h
    obtain ⟨j, h1, h2, _⟩ := h
    omega
  | succ fuel ih =>
    intro i h
    by_cases hb : x.testBit i = true
    · simp only [ffzAux, if_pos hb]
      have h' : ∃ j, i + 1 ≤ j ∧ j < (i + 1) + fuel ∧ x.testBit j = false := by
        obtain ⟨j, h1, h2, h3⟩ := h
        have hne : j ≠ i := by
          intro e
          rw [e, hb] at h3
          cases h3
        exact ⟨j, by omega, by omega, h3⟩
      obtain ⟨r1, r2, r3, r4⟩ := ih (i + 1) h'
      refine ⟨r1, by omega, by omega, ?_⟩
      intro k hk1 hk2
      rcases Nat.eq_or_lt_of_le hk1 with e | hlt
      · rw [← e]
        exact hb
      · exact r4 k hlt hk2
    · simp only [ffzAux, if_neg hb]
      refine ⟨by simpa using hb, Nat.le_refl i, by omega, ?_⟩
      intro k hk1 hk2
      omega

/-- Bit `i < 64` of a complement is the negation of the original bit. -/
theorem testBit_complement_lt (x i : Nat) (h : i < 64) :
    (SigSet.complement x).testBit i = !(x.testBit i) := by
  unfold SigSet.complement
  rw [Nat.testBit_xor, Nat.testBit_two_pow_sub_one, decide_eq_true h,
    Bool.xor_true]

/-- Bits at or above 64 of a complement of a 64-bit value are clear. -/
theorem testBit_complement_ge (x i : Nat) (hx : x < 2 ^ 64) (h : 64 ≤ i) :
    (SigSet.complement x).testBit i = false := by
  have hxi : x < 2 ^ i := lt_of_lt_of_le hx (Nat.pow_le_pow_right (by norm_num) h)
  have h1 : x.testBit i = false := Nat.testBit_lt_two_pow hxi
  unfold SigSet.complement
  rw [Nat.testBit_xor, Nat.testBit_two_pow_sub_one, h1,
    decide_eq_false (Nat.not_lt.mpr h), Bool.xor_false]

/-- The complement of a 64-bit value is again a 64-bit value. -/
theorem complement_lt_two_pow (x : Nat) (hx : x < 2 ^ 64) :
    SigSet.complement x < 2 ^ 64 :=
  Nat.xor_lt_two_pow hx (by norm_num)

/-- For a nonzero 64-bit value `y`, `ffz(¬y)` is the index of the lowest set
bit of `y`. -/
theorem ffz_complement_spec (y : Nat) (hy : y < 2 ^ 64) (hne : y ≠ 0) :
    ffz (SigSet.complement y) < 64 ∧
      y.testBit (ffz (SigSet.complement y)) = true ∧
      ∀ k, k < ffz (SigSet.complement y) → y.testBit k = false := by
  obtain ⟨j, hj⟩ := Nat.ne_zero_implies_bit_true hne
  have hj64 : j < 64 := by
    by_contra hge
    have : y < 2 ^ j :=
      lt_of_lt_of_le hy (Nat.pow_le_pow_right (by norm_num) (by omega))
    rw [Nat.testBit_lt_two_pow this] at hj
    cases hj
  have hex : ∃ k, 0 ≤ k ∧ k < 0 + 64 ∧ (SigSet.complement y).testBit k = false := by
    refine ⟨j, Nat.zero_le j, by omega, ?_⟩
    rw [testBit_complement_lt y j hj64, hj]
    rfl
  obtain ⟨r1, _, r3, r4⟩ := ffzAux_spec (SigSet.complement y) 64 0 hex
  have hr64 : ffz (SigSet.complement y) < 64 := by
    simpa [ffz] using r3
  refine ⟨hr64, ?_, ?_⟩
  · have h1 : (SigSet.complement y).testBit (ffz (SigSet.complement y)) = false := r1
    rw [testBit_complement_lt y _ hr64] at h1
    simpa using h1
  · intro k hk
    have hk64 : k < 64 := by omega
    have h1 : (SigSet.complement y).testBit k = true := r4 k (Nat.zero_le k) hk
    rw [testBit_complement_lt y k hk64] at h1
    simpa using h1

/-! ## Claim theorems -/

/-- C1: for every `SigPending` state and block mask, `next_signal` returns
INVALID when `signal ∩ ¬mask` is empty, and otherwise the numerically
smallest signal number whose bit is set in `signal ∩ ¬mask`; it never
returns a signal whose bit is set in the mask. -/
theorem next_signal_spec (p : SigPending) (mask : SigSet)
    (hs : p.signal < 2 ^ 64) (hm : mask < 2 ^ 64) :
    (SigSet.intersection p.signal (SigSet.complement mask) = 0 →
        SigPending.next_signal p mask = Signal.INVALID) ∧
    (SigSet.intersection p.signal (SigSet.complement mask) ≠ 0 →
        1 ≤ SigPending.next_signal p mask ∧
        SigPending.next_signal p mask ≤ 64 ∧
        (SigSet.intersection p.signal (SigSet.complement mask)).testBit
            (SigPending.next_signal p mask - 1) = true ∧
        (∀ k, k < SigPending.next_signal p mask - 1 →
            (SigSet.intersection p.signal (SigSet.complement mask)).testBit k
              = false) ∧
        mask.testBit (SigPending.next_signal p mask - 1) = false) := by
  have hready_lt :
      SigSet.intersection p.signal (SigSet.complement mask) < 2 ^ 64 :=
    Nat.and_lt_two_pow _ (complement_lt_two_pow mask hm)
  constructor
  · intro h0
    simp only [SigPending.next_signal, SigSet.bits]
    rw [if_neg (by simpa using h0)]
  · intro hne
    obtain ⟨f1, f2, f3⟩ :=
      ffz_complement_spec (SigSet.intersection p.signal (SigSet.complement mask))
        hready_lt hne
    have hval : SigPending.next_signal p mask =
        ffz (SigSet.complement
          (SigSet.intersection p.signal (SigSet.complement mask))) + 1 := by
      simp only [SigPending.next_signal, SigSet.bits]
      rw [if_pos (by simpa using hne)]
      unfold Signal.ofNat
      rw [if_pos (by omega)]
    rw [hval]
    simp only [Nat.add_sub_cancel]
    refine ⟨Nat.succ_le_succ (Nat.zero_le _), f1, f2, f3, ?_⟩
    have hand := Nat.testBit_and p.signal (SigSet.complement mask)
      (ffz (SigSet.complement
        (SigSet.intersection p.signal (SigSet.complement mask))))
    rw [show (p.signal &&& SigSet.complement mask) =
        SigSet.intersection p.signal (SigSet.complement mask) from rfl] at hand
    rw [f2] at hand
    have hcm : (SigSet.complement mask).testBit
        (ffz (SigSet.complement
          (SigSet.intersection p.signal (SigSet.complement mask)))) = true := by
      cases hcm' : (SigSet.complement mask).testBit
          (ffz (SigSet.complement
            (SigSet.intersection p.signal (SigSet.complement mask)))) with
      | false => rw [hcm'] at hand; simp at hand
      | true => rfl
    rw [testBit_complement_lt mask _ f1] at hcm
    simpa using hcm

/-- Witness for C1: pending set {SIGINT}, empty mask — the selected signal's
bit is set in the ready set and clear in the mask. -/
theorem next_signal_spec_witness :
    (SigSet.intersection ((⟨2, ⟨[]⟩⟩ : SigPending).signal)
        (SigSet.complement 0)).testBit
      (SigPending.next_signal ⟨2, ⟨[]⟩⟩ 0 - 1) = true ∧
    (0 : SigSet).testBit (SigPending.next_signal ⟨2, ⟨[]⟩⟩ 0 - 1) = false := by
  have h := (next_signal_spec ⟨2, ⟨[]⟩⟩ 0 (by decide) (by decide)).2 (by decide)
  exact ⟨h.2.2.1, h.2.2.2.2⟩

/-- `l.any p` decides whether `countP` is positive. -/
theorem any_eq_decide_countP (l : List SigInfo) (pr : SigInfo → Bool) :
    l.any pr = decide (0 < l.countP pr) := by
  by_cases h : l.any pr = true
  · rw [h]
    symm
    rw [decide_eq_true_iff, List.countP_pos_iff]
    simpa using List.any_eq_true.mp h
  · rw [Bool.not_eq_true] at h
    rw [h]
    symm
    rw [decide_eq_false_iff_not]
    intro hc
    have := List.any_eq_true.mpr (by simpa using List.countP_pos_iff.mp hc)
    rw [h] at this
    cases this

/-- Once the `drain_filter` closure has removed its one entry (`first` is
false), the rest of the pass keeps everything and only accumulates
`still_pending`. -/
theorem fadGo_not_first (sig : Signal) (l : List SigInfo) (sp : Bool) :
    fadGo sig l false sp =
      (l, [], sp || l.any fun x => x.sig_no == (sig : Int)) := by
  induction l generalizing sp with
  | nil => simp [fadGo]
  | cons x xs ih =>
    by_cases hx : (x.sig_no == (sig : Int)) = true
    · have he : x.sig_no = (sig : Int) := eq_of_beq hx
      simp [fadGo, hx, he, ih]
    · have he : ¬ x.sig_no = (sig : Int) := by
        intro h
        rw [h] at hx
        simp at hx
      simp only [Bool.not_eq_true] at hx
      simp [fadGo, hx, he, ih]

/-- Full characterisation of the `drain_filter` pass from its initial state:
kept entries are the queue minus the first match, the removed list is the
first match, and `still_pending` says at least two matches were present. -/
theorem fadGo_first (sig : Signal) (l : List SigInfo) :
    fadGo sig l true false =
      (l.eraseP (fun x => x.sig_no == (sig : Int)),
       (l.find? fun x => x.sig_no == (sig : Int)).toList,
       decide (2 ≤ l.countP fun x => x.sig_no == (sig : Int))) := by
  induction l with
  | nil => simp [fadGo]
  | cons x xs ih =>
    by_cases hx : (x.sig_no == (sig : Int)) = true
    · have he : x.sig_no = (sig : Int) := eq_of_beq hx
      simp [fadGo, hx, he, fadGo_not_first, any_eq_decide_countP,
        decide_eq_decide]
    · have he : ¬ x.sig_no = (sig : Int) := by
        intro h
        rw [h] at hx
        simp at hx
      simp only [Bool.not_eq_true] at hx
      simp [fadGo, hx, he, ih]

/-- `SigQueue::find_and_delete` in closed form: (first match, at least two
matches, queue minus the first match). -/
theorem find_and_delete_eq (q : SigQueue) (sig : Signal) :
    SigQueue.find_and_delete q sig =
      ((q.q.find? fun x => x.sig_no == (sig : Int),
        decide (2 ≤ q.q.countP fun x => x.sig_no == (sig : Int))),
       ⟨q.q.eraseP fun x => x.sig_no == (sig : Int)⟩) := by
  unfold SigQueue.find_and_delete
  rw [fadGo_first]
  cases h : q.q.find? fun x => x.sig_no == (sig : Int) <;> simp [h]

/-- After the first match has been remembered, the `find` loop only decides
whether any further match exists. -/
theorem findGo_some (sig : Signal) (l : List SigInfo) (i : SigInfo) :
    findGo sig l (some i) =
      (some i, l.any fun x => x.sig_no == (sig : Int)) := by
  induction l with
  | nil => simp [findGo]
  | cons x xs ih =>
    by_cases hx : (x.sig_no == (sig : Int)) = true
    · have he : x.sig_no = (sig : Int) := eq_of_beq hx
      simp [findGo, hx, he]
    · have he : ¬ x.sig_no = (sig : Int) := by
        intro h
        rw [h] at hx
        simp at hx
      simp only [Bool.not_eq_true] at hx
      simp [findGo, hx, he, ih]

/-- `SigQueue::find` in closed form: same pair as `find_and_delete`. -/
theorem find_eq (q : SigQueue) (sig : Signal) :
    SigQueue.find q sig =
      (q.q.find? fun x => x.sig_no == (sig : Int),
       decide (2 ≤ q.q.countP fun x => x.sig_no == (sig : Int))) := by
  unfold SigQueue.find
  have hgen : ∀ l : List SigInfo,
      findGo sig l none =
        (l.find? fun x => x.sig_no == (sig : Int),
         decide (2 ≤ l.countP fun x => x.sig_no == (sig : Int))) := by
    intro l
    induction l with
    | nil => simp [findGo]
    | cons x xs ih =>
      by_cases hx : (x.sig_no == (sig : Int)) = true
      · have he : x.sig_no = (sig : Int) := eq_of_beq hx
        simp [findGo, hx, he, findGo_some, any_eq_decide_countP,
          decide_eq_decide]
      · have he : ¬ x.sig_no = (sig : Int) := by
          intro h
          rw [h] at hx
          simp at hx
        simp only [Bool.not_eq_true] at hx
        simp [findGo, hx, he, ih]
  exact hgen q.q

/-- Erasing the first match lowers the match count by exactly one. -/
theorem countP_eraseP_self (l : List SigInfo) (pr : SigInfo → Bool) :
    (l.eraseP pr).countP pr = l.countP pr - 1 := by
  induction l with
  | nil => simp
  | cons x xs ih =>
    by_cases hx : pr x = true
    · rw [List.eraseP_cons_of_pos hx]
      simp [hx]
    · rw [List.eraseP_cons_of_neg hx]
      simp [hx, ih]

/-- C3: `find_and_delete` removes exactly the first entry with the requested
signal number and returns it; the length drops by exactly one iff a match
existed and never by more; `still_pending` is true iff at least two matches
were present before the call. -/
theorem find_and_delete_spec (q : SigQueue) (sig : Signal) :
    (SigQueue.find_and_delete q sig).2.q
        = q.q.eraseP (fun x => x.sig_no == (sig : Int)) ∧
    (SigQueue.find_and_delete q sig).1.1
        = q.q.find? (fun x => x.sig_no == (sig : Int)) ∧
    ((SigQueue.find_and_delete q sig).1.2 = true ↔
        2 ≤ q.q.countP fun x => x.sig_no == (sig : Int)) ∧
    (q.q.length = (SigQueue.find_and_delete q sig).2.q.length + 1 ↔
        0 < q.q.countP fun x => x.sig_no == (sig : Int)) ∧
    q.q.length ≤ (SigQueue.find_and_delete q sig).2.q.length + 1 := by
  rw [find_and_delete_eq]
  have hcle : (q.q.countP fun x => x.sig_no == (sig : Int)) ≤ q.q.length :=
    List.countP_le_length (fun x : SigInfo => x.sig_no == (sig : Int))
  refine ⟨rfl, rfl, by simp, ?_, ?_⟩
  · rw [List.length_eraseP]
    by_cases hany : (q.q.any fun x => x.sig_no == (sig : Int)) = true
    · rw [if_pos hany]
      have h1 : 0 < q.q.countP fun x => x.sig_no == (sig : Int) := by
        rw [List.countP_pos_iff]
        simpa using List.any_eq_true.mp hany
      constructor
      · intro _
        exact h1
      · intro _
        omega
    · rw [if_neg hany]
      have h0 : (q.q.countP fun x => x.sig_no == (sig : Int)) = 0 := by
        by_contra hc
        exact hany (by
          rw [any_eq_decide_countP, decide_eq_true_iff]
          omega)
      constructor
      · intro habs
        omega
      · intro hpos
        omega
  · rw [List.length_eraseP]
    split <;> omega

/-- C9: `find` and `find_and_delete` agree on the returned entry and the
`still_pending` flag. -/
theorem find_agrees_with_find_and_delete (q : SigQueue) (sig : Signal) :
    SigQueue.find q sig = (SigQueue.find_and_delete q sig).1 := by
  rw [find_eq, find_and_delete_eq]

/-- C2: `collect_signal` removes and returns the first queued entry for the
signal — synthesizing `{sig_no = sig, SI_USER, errno 0, reserved 0, Kill(0)}`
when none is queued — and the pending bit (sig-1) is cleared exactly when no
entry for that signal remains in the queue afterwards. -/
theorem collect_signal_spec (p : SigPending) (sig : Signal) :
    (SigPending.collect_signal p sig).1
        = (p.queue.q.find? fun x => x.sig_no == (sig : Int)).getD
            ⟨(sig : Int), SigCode.SI_USER, 0, 0, SigType.Kill 0⟩ ∧
    (SigPending.collect_signal p sig).2.queue.q
        = p.queue.q.eraseP (fun x => x.sig_no == (sig : Int)) ∧
    (SigPending.collect_signal p sig).2.signal
        = (if ((SigPending.collect_signal p sig).2.queue.q.countP
              fun x => x.sig_no == (sig : Int)) = 0
           then SigSet.remove p.signal (Signal.into_sigset sig)
           else p.signal) := by
  have hc := countP_eraseP_self p.queue.q (fun x => x.sig_no == (sig : Int))
  cases h : p.queue.q.find? fun x => x.sig_no == (sig : Int) with
  | none =>
    have hall : ∀ x ∈ p.queue.q, ¬ (x.sig_no == (sig : Int)) = true :=
      List.find?_eq_none.mp h
    have hcount : (p.queue.q.countP fun x => x.sig_no == (sig : Int)) = 0 :=
      List.countP_eq_zero.mpr hall
    have herase :
        p.queue.q.eraseP (fun x => x.sig_no == (sig : Int)) = p.queue.q :=
      List.eraseP_of_forall_not hall
    refine ⟨?_, ?_, ?_⟩ <;>
      simp [SigPending.collect_signal, find_and_delete_eq, h, hcount, herase,
        SigInfo.new]
  | some i =>
    refine ⟨?_, ?_, ?_⟩
    · simp [SigPending.collect_signal, find_and_delete_eq, h]
    · simp [SigPending.collect_signal, find_and_delete_eq, h]
    · have hq : (SigPending.collect_signal p sig).2.queue.q
          = p.queue.q.eraseP (fun x => x.sig_no == (sig : Int)) := by
        simp [SigPending.collect_signal, find_and_delete_eq, h]
      rw [hq, hc]
      simp only [SigPending.collect_signal, find_and_delete_eq, h]
      by_cases h2 : 2 ≤ p.queue.q.countP fun x => x.sig_no == (sig : Int)
      · rw [if_pos (by simpa using h2), if_neg (by omega)]
      · rw [if_neg (by simpa using h2), if_pos (by omega)]

/-- C4: code behavior at the failing input of spec scenario E.  With SIGINT,
SIGTERM, SIGUSR1 queued and mask {SIGINT, SIGUSR1} (bits 1 and 9),
`flush_by_mask` removes only the SIGINT entry: the SIGUSR1 entry survives
even though its mask bit (9) is set, because the filter interprets the
signal number 10 as the raw bit pattern 0b1010 instead of `1 << 9`. -/
theorem flush_by_mask_scenario_e :
    Nat.testBit scenarioMaskE 9 = true ∧
    (SigQueue.flush_by_mask scenarioQueueE scenarioMaskE).q
      = [sigtermInfo, sigusr1Info] := by
  constructor
  · decide
  · decide

/-- C5 counterexample: the set-bit positions of `SIG_KERNEL_IGNORE_MASK` are
not {SIGCHLD, SIGCONT, SIGURG, SIGWINCH, SIGIO} (bits 16, 17, 22, 27, 28). -/
theorem ignore_mask_bits_ne_claimed :
    (List.range 64).filter (Nat.testBit SIG_KERNEL_IGNORE_MASK) ≠
      [16, 17, 22, 27, 28] := by
  decide

/-- C5 (amended): `SIG_KERNEL_IGNORE_MASK` contains exactly SIGTRAP, SIGBUS,
SIGFPE, SIGSEGV, SIGCHLD, SIGCONT, SIGIO/POLL, SIGSYS (bits 4, 6, 7, 10, 16,
17, 28, 30); SIGURG and SIGWINCH are absent. -/
theorem ignore_mask_bits_exact :
    (List.range 64).filter (Nat.testBit SIG_KERNEL_IGNORE_MASK) =
      [4, 6, 7, 10, 16, 17, 28, 30] := by
  decide

/-- C6: `Sigaction::ignore` returns true iff the flags contain SA_FLAG_IGN,
or they contain SA_FLAG_DFL and the action is `SaHandler(SigIgnore)`; with
flags = SA_FLAG_DFL and action `SaHandler(SigDefault)` it returns false for
every signal. -/
theorem sigaction_ignore_spec (a : Sigaction) (sig : Signal) :
    (Sigaction.ignore a sig = true ↔
      SigFlags.contains a.flags SigFlags.SA_FLAG_IGN = true ∨
        (SigFlags.contains a.flags SigFlags.SA_FLAG_DFL = true ∧
          a.action = SigactionType.SaHandler SaHandlerType.SigIgnore)) ∧
    Sigaction.ignore
        ⟨SigactionType.SaHandler SaHandlerType.SigDefault,
          SigFlags.SA_FLAG_DFL, 0, none⟩ sig = false := by
  constructor
  · unfold Sigaction.ignore
    by_cases h1 : SigFlags.contains a.flags SigFlags.SA_FLAG_IGN = true
    · simp [h1]
    · rw [if_neg h1]
      by_cases h2 : SigFlags.contains a.flags SigFlags.SA_FLAG_DFL = true
      · rw [if_pos h2]
        cases ha : a.action with
        | SaHandler ht =>
          cases ht <;> simp [h1, h2]
        | SaSigaction f => simp [h1, h2]
      · rw [if_neg h2]
        simp [h1, h2]
  · rfl

/-- C7: flushing the queue through a `SigPending` leaves the pending bitset
field untouched: `SigQueue::flush_by_mask` only filters the queue. -/
theorem flush_by_mask_preserves_signal (p : SigPending) (mask : SigSet) :
    (SigPending.flush_by_mask p mask).signal = p.signal := rfl

/-- C8: `copy_siginfo_to_user` returns 0 and deposits the whole record when
the destination range is valid writable user memory, returns EFAULT when
validation fails, and in the failure case no bytes are transferred. -/
theorem copy_siginfo_to_user_spec (info : SigInfo) (mem : UserMem) (dst : Nat) :
    (mem.writableRange dst sigInfoSize = true →
      SigInfo.copy_siginfo_to_user info mem dst =
        Except.ok (0, ⟨mem.writableRange,
          fun a => if a = dst then some info else mem.store a⟩)) ∧
    (mem.writableRange dst sigInfoSize = false →
      SigInfo.copy_siginfo_to_user info mem dst
        = Except.error SystemError.EFAULT) := by
  constructor <;> intro h <;> simp [SigInfo.copy_siginfo_to_user, h]

/-- Witness for C8 at a concrete record, memory, and destination address. -/
theorem copy_siginfo_to_user_spec_witness :
    SigInfo.copy_siginfo_to_user copyDemoInfo copyDemoMem 4096 =
      Except.ok (0, ⟨copyDemoMem.writableRange,
        fun a => if a = 4096 then some copyDemoInfo else copyDemoMem.store a⟩) :=
  (copy_siginfo_to_user_spec copyDemoInfo copyDemoMem 4096).1 rfl

/-- C10: the result of `Sigaction::ignore` does not depend on the signal
argument; it is a function of the flags and action fields only. -/
theorem ignore_independent_of_signal (a : Sigaction) (s1 s2 : Signal) :
    Sigaction.ignore a s1 = Sigaction.ignore a s2 := rfl
